import Mathlib

/-!
# Host accessors of `handler/nethttp/host.go`

A shallow embedding of the accessors of the `net/http` host adapter (headers,
trailers, the Host name, the request URI, the status code and the bodies), together
with the parts of the Go standard library they call
(`textproto.CanonicalMIMEHeaderKey`, `http.Header`, `strings.HasPrefix`,
`sort.Strings`, `(*url.URL).EscapedPath`).

Conventions of the embedding:

* A Go `string` is a Lean `String`.  Go works on the UTF-8 bytes; every byte of a
  non-ASCII character is at least `0x80`, so a test on ASCII bytes is the same test
  on characters, and bytewise lexicographic order is the order of the code points.
* A Go map `map[string][]string` is the list of its entries, in the order in which
  `range` happens to visit them.  A map has one entry per key, which is the
  predicate `Header.WF`.  Go does not fix the iteration order, so statements about
  enumerations are also proved for every permutation of the entries.
* A `nil` slice and an empty slice are both the empty list; none of the functions
  embedded here can return a non-nil empty slice.
* Mutating accessors return the new state.  A call that panics returns `none`.
* Readers and buffers are positions in the list `streams` of the state, which holds
  the bytes not yet read from each of them; two values that point to the same Go
  buffer are the same position.
-/

namespace Wasm

/-! ## Standard library: strings and sorting -/

/-- Go `strings.HasPrefix(s, p)`. -/
def HasPrefix (s p : String) : Bool :=
  p.data.isPrefixOf s.data

/-- Go slice expression `s[n:]` on a string whose first `n` bytes are ASCII. -/
def sliceFrom (s : String) (n : Nat) : String :=
  String.mk (s.data.drop n)

/-- Go `len(s)` for an ASCII string. -/
def len (s : String) : Nat :=
  s.data.length

/-- Go string comparison `a <= b`: lexicographic on the bytes. -/
def leStr (a b : String) : Prop :=
  a.data ≤ b.data

instance leStr.decidable : DecidableRel leStr :=
  fun a b => by unfold leStr; infer_instance

instance leStr.isTotal : IsTotal String leStr :=
  ⟨fun a b => le_total a.data b.data⟩

instance leStr.isTrans : IsTrans String leStr :=
  ⟨fun _ _ _ hab hbc => le_trans (α := List Char) hab hbc⟩

instance leStr.isAntisymm : IsAntisymm String leStr :=
  ⟨fun _ _ hab hba => String.ext (le_antisymm (α := List Char) hab hba)⟩

/-- Go `sort.Strings`: the increasing rearrangement of the slice.  The order is
total, so the sorted rearrangement is unique; it is computed here by insertion. -/
def sortStrings (names : List String) : List String :=
  List.insertionSort leStr names

/-! ## Standard library: `net/textproto` -/

/-- Go `textproto.validHeaderFieldByte`: the token characters of RFC 7230,
that is the ASCII letters and digits and fifteen punctuation marks. -/
def validHeaderFieldByte (c : Char) : Bool :=
  decide (48 ≤ c.toNat ∧ c.toNat ≤ 57) ||
  decide (97 ≤ c.toNat ∧ c.toNat ≤ 122) ||
  decide (65 ≤ c.toNat ∧ c.toNat ≤ 90) ||
  [33, 35, 36, 37, 38, 39, 42, 43, 45, 46, 94, 95, 96, 124, 126].contains c.toNat

/-- Go test `'a' <= c && c <= 'z'`. -/
def isLowerByte (c : Char) : Bool :=
  decide (97 ≤ c.toNat ∧ c.toNat ≤ 122)

/-- Go test `'A' <= c && c <= 'Z'`. -/
def isUpperByte (c : Char) : Bool :=
  decide (65 ≤ c.toNat ∧ c.toNat ≤ 90)

/-- Go constant `toLower = 'a' - 'A'`. -/
def toLower : Nat := 32

/-- One step of the canonicalising loop of `canonicalMIMEHeaderKey`: upper case
at the start and after a dash, lower case elsewhere. -/
def canonByte (upper : Bool) (c : Char) : Char :=
  if upper && isLowerByte c then Char.ofNat (c.toNat - toLower)
  else if !upper && isUpperByte c then Char.ofNat (c.toNat + toLower)
  else c

/-- The second loop of `canonicalMIMEHeaderKey`, started with flag `upper`. -/
def canonLoop : Bool → List Char → List Char
  | _, [] => []
  | upper, c :: cs =>
    let c1 := canonByte upper c
    c1 :: canonLoop (c1 == '-') cs

/-- The first loop of `canonicalMIMEHeaderKey`: `none` when a byte is neither a
token byte nor a space (the key is returned unchanged, not ok), otherwise the
final value of `noCanon`. -/
def scanKey : List Char → Bool → Option Bool
  | [], noCanon => some noCanon
  | c :: cs, noCanon =>
    if validHeaderFieldByte c then scanKey cs noCanon
    else if c == ' ' then scanKey cs true
    else none

/-- Go `textproto.canonicalMIMEHeaderKey`.  The final lookup in the table of
common headers returns a string equal to its argument and is left out. -/
def canonicalMIMEHeaderKey (a : List Char) : List Char × Bool :=
  match scanKey a false with
  | none => (a, false)
  | some true => (a, true)
  | some false => (canonLoop true a, true)

/-- The quick check of `CanonicalMIMEHeaderKey` on the bytes still to visit;
`s` is the whole key. -/
def quickCheck (s : List Char) : Bool → List Char → List Char
  | _, [] => s
  | upper, c :: cs =>
    if !validHeaderFieldByte c then s
    else if upper && isLowerByte c then (canonicalMIMEHeaderKey s).1
    else if !upper && isUpperByte c then (canonicalMIMEHeaderKey s).1
    else quickCheck s (c == '-') cs

/-- Go `textproto.CanonicalMIMEHeaderKey`. -/
def CanonicalMIMEHeaderKey (s : String) : String :=
  String.mk (quickCheck s.data true s.data)

/-! ## Standard library: `http.Header` -/

/-- Go `http.TrailerPrefix`. -/
def TrailerPrefix : String := "Trailer:"

/-- Go `http.Header`, a `map[string][]string`, as the list of its entries. -/
abbrev Header := List (String × List String)

/-- The keys of a header map, in iteration order. -/
def Header.keys (h : Header) : List String :=
  h.map Prod.fst

/-- A Go map holds one entry per key. -/
def Header.WF (h : Header) : Prop :=
  h.keys.Nodup

instance Header.WF.decidable (h : Header) : Decidable h.WF := by
  unfold Header.WF; infer_instance

/-- Go map index `h[k]`: the value stored under `k`, or nil. -/
def Header.index (h : Header) (k : String) : List String :=
  match h.lookup k with
  | some vs => vs
  | none => []

/-- Go `delete(h, k)`. -/
def Header.delete (h : Header) (k : String) : Header :=
  h.filter (fun e => e.1 != k)

/-- Go map assignment `h[k] = vs`. -/
def Header.assign (h : Header) (k : String) (vs : List String) : Header :=
  (k, vs) :: h.delete k

/-- Go `Header.Values(key)`. -/
def Header.Values (h : Header) (key : String) : List String :=
  h.index (CanonicalMIMEHeaderKey key)

/-- Go `Header.Set(key, value)`. -/
def Header.Set (h : Header) (key value : String) : Header :=
  h.assign (CanonicalMIMEHeaderKey key) [value]

/-- Go `Header.Add(key, value)`. -/
def Header.Add (h : Header) (key value : String) : Header :=
  h.assign (CanonicalMIMEHeaderKey key) (h.index (CanonicalMIMEHeaderKey key) ++ [value])

/-- Go `Header.Del(key)`. -/
def Header.Del (h : Header) (key : String) : Header :=
  h.delete (CanonicalMIMEHeaderKey key)

/-! ## The request state -/

/-- Go `url.URL`: the fields read or written by the URI accessors. -/
structure URL where
  Path : String := ""
  RawPath : String := ""
  ForceQuery : Bool := false
  RawQuery : String := ""
deriving DecidableEq

/-- The fields of `*http.Request` read or written by the accessors.  `Body` is an
`io.ReadCloser`: it is the number of a stream of the state (see `requestState`). -/
structure Request where
  Host : String := ""
  Header : Header := []
  RequestURI : String := ""
  URL : URL := {}
  Body : Nat := 0

/-- Modelled from the spec: the buffering response writer (`bufferingResponseWriter`,
declared outside `host.go`) holds a status code, where 0 means unset, and a body
buffer; its header container is the one of the writer it wraps. -/
structure bufferingResponseWriter where
  statusCode : Nat := 0
  body : List UInt8 := []

/-- The `http.ResponseWriter` of the state.  `header` is the map returned by
`Header()`.  `buffering` is `some b` when the dynamic type of the writer is
`*bufferingResponseWriter`, and `none` for the real writer, of which `status` is the
status code committed by `WriteHeader` and `written` the bytes written so far. -/
structure ResponseWriter where
  header : Header := []
  buffering : Option bufferingResponseWriter := none
  status : Option Nat := none
  written : List UInt8 := []

/-- Modelled from the spec: the per-transaction state (`requestState`, declared
outside `host.go`) holds the request and the response writer.  `streams` lists, for
every reader or buffer created so far, the bytes that have not been read from it;
`r.Body` and the sinks returned by `RequestBodyWriter` are positions in it. -/
structure requestState where
  r : Request := {}
  w : ResponseWriter := {}
  streams : List (List UInt8) := [[]]

/-! ## `host.go`: request headers -/

/-- The loop `for n := range r.Header` of `GetRequestHeaderNames`: a key with the
trailer prefix is skipped, any other key is stored in `names[i]`. -/
def requestNamesLoop (header : Header) (names : List String) (i : Nat) : List String × Nat :=
  header.foldl
    (fun acc e => if HasPrefix e.1 TrailerPrefix then acc else (acc.1.set acc.2 e.1, acc.2 + 1))
    (names, i)

/-- The end of `GetRequestHeaderNames`, after the loop. -/
def requestNamesFinish (names : List String) : List String :=
  if names.length = 0 then [] else sortStrings names

/-- Go `host.GetRequestHeaderNames`. -/
def GetRequestHeaderNames (s : requestState) : List String :=
  let r := s.r
  let count := r.Header.length
  if r.Host ≠ "" then
    let count := count + 1
    let names := (List.replicate count "").set 0 "Host"
    requestNamesFinish (requestNamesLoop r.Header names 1).1
  else if count = 0 then []
  else
    let names := List.replicate count ""
    requestNamesFinish (requestNamesLoop r.Header names 0).1

/-- Go `host.GetRequestHeaderValues`. -/
def GetRequestHeaderValues (s : requestState) (name : String) : List String :=
  if CanonicalMIMEHeaderKey name = "Host" then [s.r.Host]
  else s.r.Header.Values name

/-- Go `host.SetRequestHeaderValue`. -/
def SetRequestHeaderValue (s : requestState) (name value : String) : requestState :=
  { s with r := { s.r with Header := s.r.Header.Set name value } }

/-- Go `host.AddRequestHeaderValue`. -/
def AddRequestHeaderValue (s : requestState) (name value : String) : requestState :=
  { s with r := { s.r with Header := s.r.Header.Add name value } }

/-- Go `host.RemoveRequestHeader`. -/
def RemoveRequestHeader (s : requestState) (name : String) : requestState :=
  { s with r := { s.r with Header := s.r.Header.Del name } }

/-! ## `host.go`: response headers -/

/-- Go `host.GetResponseHeaderNames`. -/
def GetResponseHeaderNames (s : requestState) : List String :=
  let header := s.w.header
  let count := header.length
  if count = 0 then []
  else
    let names := header.foldl
      (fun names e => if HasPrefix e.1 TrailerPrefix then names else names ++ [e.1]) []
    if names.length = 0 then [] else sortStrings names

/-- Go `host.GetResponseHeaderValues`. -/
def GetResponseHeaderValues (s : requestState) (name : String) : List String :=
  s.w.header.Values name

/-- Go `host.SetResponseHeaderValue`. -/
def SetResponseHeaderValue (s : requestState) (name value : String) : requestState :=
  { s with w := { s.w with header := s.w.header.Set name value } }

/-- Go `host.AddResponseHeaderValue`. -/
def AddResponseHeaderValue (s : requestState) (name value : String) : requestState :=
  { s with w := { s.w with header := s.w.header.Add name value } }

/-- Go `host.RemoveResponseHeader`. -/
def RemoveResponseHeader (s : requestState) (name : String) : requestState :=
  { s with w := { s.w with header := s.w.header.Del name } }

/-! ## `host.go`: the trailer codec -/

/-- Go `trailerNames`. -/
def trailerNames (header : Header) : List String :=
  sortStrings (header.foldl
    (fun names e =>
      if HasPrefix e.1 TrailerPrefix then names ++ [sliceFrom e.1 (len TrailerPrefix)]
      else names) [])

/-- Go `getTrailers`. -/
def getTrailers (header : Header) (name : String) : List String :=
  header.Values (TrailerPrefix ++ name)

/-- Go `setTrailer`. -/
def setTrailer (header : Header) (name value : String) : Header :=
  header.Set (TrailerPrefix ++ name) value

/-- Go `addTrailer`. -/
def addTrailer (header : Header) (name value : String) : Header :=
  header.Set (TrailerPrefix ++ name) value

/-- Go `removeTrailer`. -/
def removeTrailer (header : Header) (name : String) : Header :=
  header.Del (TrailerPrefix ++ name)

/-- Go `host.GetResponseTrailerNames`. -/
def GetResponseTrailerNames (s : requestState) : List String :=
  trailerNames s.w.header

/-- Go `host.GetResponseTrailerValues`. -/
def GetResponseTrailerValues (s : requestState) (name : String) : List String :=
  getTrailers s.w.header name

/-- Go `host.SetResponseTrailerValue`. -/
def SetResponseTrailerValue (s : requestState) (name value : String) : requestState :=
  { s with w := { s.w with header := setTrailer s.w.header name value } }

/-- Go `host.AddResponseTrailerValue`. -/
def AddResponseTrailerValue (s : requestState) (name value : String) : requestState :=
  { s with w := { s.w with header := addTrailer s.w.header name value } }

/-- Go `host.RemoveResponseTrailer`. -/
def RemoveResponseTrailer (s : requestState) (name : String) : requestState :=
  { s with w := { s.w with header := removeTrailer s.w.header name } }

/-- Go `host.GetRequestTrailerNames`; the map it reads is `w.Header()`. -/
def GetRequestTrailerNames (s : requestState) : List String :=
  trailerNames s.w.header

/-- Go `host.GetRequestTrailerValues`; the map it reads is `w.Header()`. -/
def GetRequestTrailerValues (s : requestState) (name : String) : List String :=
  getTrailers s.w.header name

/-- Go `host.SetRequestTrailerValue`; the map it writes is `w.Header()`. -/
def SetRequestTrailerValue (s : requestState) (name value : String) : requestState :=
  { s with w := { s.w with header := setTrailer s.w.header name value } }

/-- Go `host.AddRequestTrailerValue`; the map it writes is `w.Header()`. -/
def AddRequestTrailerValue (s : requestState) (name value : String) : requestState :=
  { s with w := { s.w with header := addTrailer s.w.header name value } }

/-- Go `host.RemoveRequestTrailer`; the map it writes is `w.Header()`. -/
def RemoveRequestTrailer (s : requestState) (name : String) : requestState :=
  { s with w := { s.w with header := removeTrailer s.w.header name } }

/-- Two names differ at most in the case of their ASCII letters. -/
def sameUpToCase (n n1 : String) : Prop :=
  n.data.map Char.toLower = n1.data.map Char.toLower

instance sameUpToCase.decidable (n n1 : String) : Decidable (sameUpToCase n n1) := by
  unfold sameUpToCase; infer_instance

/-- Every character of the name is a header token character. -/
def validHeaderName (n : String) : Prop :=
  ∀ c ∈ n.data, validHeaderFieldByte c = true

instance validHeaderName.decidable (n : String) : Decidable (validHeaderName n) := by
  unfold validHeaderName; infer_instance

/-! ## Standard library: `net/url`, path encoding -/

/-- Go `url.ishex`. -/
def ishex (c : Char) : Bool :=
  decide (48 ≤ c.toNat ∧ c.toNat ≤ 57) ||
  decide (97 ≤ c.toNat ∧ c.toNat ≤ 102) ||
  decide (65 ≤ c.toNat ∧ c.toNat ≤ 70)

/-- Go `url.unhex`. -/
def unhex (c : Char) : Nat :=
  if 48 ≤ c.toNat ∧ c.toNat ≤ 57 then c.toNat - 48
  else if 97 ≤ c.toNat ∧ c.toNat ≤ 102 then c.toNat - 97 + 10
  else if 65 ≤ c.toNat ∧ c.toNat ≤ 70 then c.toNat - 65 + 10
  else 0

/-- Go `url.shouldEscape(c, encodePath)`: letters, digits and `- _ . ~` are kept, of
the reserved characters `$ & + , / : ; = ? @` only `?` is escaped, and every other
byte is escaped, so every byte of a non-ASCII character is. -/
def shouldEscapePath (c : Char) : Bool :=
  if decide (97 ≤ c.toNat ∧ c.toNat ≤ 122) || decide (65 ≤ c.toNat ∧ c.toNat ≤ 90) ||
      decide (48 ≤ c.toNat ∧ c.toNat ≤ 57) then false
  else if [45, 95, 46, 126].contains c.toNat then false
  else if [36, 38, 43, 44, 47, 58, 59, 61, 63, 64].contains c.toNat then c.toNat == 63
  else true

/-- Go `url.validEncoded(s, encodePath)`: the sub-delimiters, `:`, `@`, the square
brackets and `%` are accepted, any other byte when it needs no escaping. -/
def validEncodedPath (s : List Char) : Bool :=
  s.all fun c =>
    [33, 36, 38, 39, 40, 41, 42, 43, 44, 59, 61, 58, 64, 91, 93, 37].contains c.toNat ||
      !shouldEscapePath c

/-- Go `url.unescape(s, encodePath)`, as the bytes of its result; `none` is the
error returned for a `%` that is not followed by two hexadecimal digits. -/
def unescapePath : List Char → Option (List UInt8)
  | [] => some []
  | c :: rest =>
    if c = '%' then
      match rest with
      | a :: b :: rest2 =>
        if ishex a && ishex b then
          (unescapePath rest2).map (fun t => UInt8.ofNat (unhex a * 16 + unhex b) :: t)
        else none
      | _ => none
    else (unescapePath rest).map (fun t => String.utf8EncodeChar c ++ t)

/-- Go table `upperhex`. -/
def upperhex (n : Nat) : Char :=
  "0123456789ABCDEF".data.getD n '0'

/-- The three bytes that `url.escape` writes for an escaped byte. -/
def pctEncode (b : UInt8) : List Char :=
  ['%', upperhex (b.toNat / 16), upperhex (b.toNat % 16)]

/-- Go `url.escape(s, encodePath)`. -/
def escapePath (s : String) : String :=
  String.mk (s.data.flatMap fun c =>
    if shouldEscapePath c then (String.utf8EncodeChar c).flatMap pctEncode else [c])

/-- The bytes of a Go string. -/
def utf8 (s : String) : List UInt8 :=
  s.data.flatMap String.utf8EncodeChar

/-- Go `(*url.URL).EscapedPath`. -/
def EscapedPath (u : URL) : String :=
  let fallback := if u.Path = "*" then "*" else escapePath u.Path
  if u.RawPath ≠ "" ∧ validEncodedPath u.RawPath.data = true then
    match unescapePath u.RawPath.data with
    | some p => if p = utf8 u.Path then u.RawPath else fallback
    | none => fallback
  else fallback

/-! ## `host.go`: the request URI -/

/-- Go `host.GetURI`. -/
def GetURI (s : requestState) : String :=
  let u := s.r.URL
  let result := EscapedPath u
  let result := if result = "" then "/" else result
  let result := if u.ForceQuery = true ∨ u.RawQuery ≠ "" then result ++ ("?" ++ u.RawQuery)
    else result
  result

/-- Go `host.SetURI`.  `ParseRequestURI` stands for `url.ParseRequestURI`, with `none`
for an error; the result `none` is the panic on a parse error. -/
def SetURI (ParseRequestURI : String → Option URL) (s : requestState) (uri : String) :
    Option requestState :=
  if uri = "" then
    some { s with r := { s.r with
      RequestURI := "/"
      URL := { s.r.URL with RawPath := "/", Path := "/", ForceQuery := false, RawQuery := "" } } }
  else
    match ParseRequestURI uri with
    | none => none
    | some u =>
      some { s with r := { s.r with
        RequestURI := uri
        URL := { s.r.URL with
          RawPath := u.RawPath, Path := u.Path, ForceQuery := u.ForceQuery,
          RawQuery := u.RawQuery } } }

/-! ## `host.go`: the request body -/

/-- Go `(*bytes.Buffer).Write` on the buffer at position `b`: the bytes are appended
to the unread content. -/
def bufferWrite (s : requestState) (b : Nat) (p : List UInt8) : requestState :=
  { s with streams := s.streams.set b (s.streams.getD b [] ++ p) }

/-- Go `io.ReadAll` on the reader at position `rd`: the unread bytes are returned and
the reader is left at its end. -/
def readAll (s : requestState) (rd : Nat) : List UInt8 × requestState :=
  (s.streams.getD rd [], { s with streams := s.streams.set rd [] })

/-- Go `host.RequestBodyReader`: the reader held in `r.Body`. -/
def RequestBodyReader (s : requestState) : Nat :=
  s.r.Body

/-- Go `host.RequestBodyWriter`: a new empty `bytes.Buffer` becomes the body of the
request and is returned as the sink. -/
def RequestBodyWriter (s : requestState) : requestState × Nat :=
  ({ s with
      streams := s.streams ++ [[]]
      r := { s.r with Body := s.streams.length } },
    s.streams.length)

/-! ## `host.go`: status code and response body -/

/-- Go `WriteHeader` of the real writer: the first status code is committed, a later
call changes nothing. -/
def WriteHeader (w : ResponseWriter) (statusCode : Nat) : ResponseWriter :=
  match w.status with
  | some _ => w
  | none => { w with status := some statusCode }

/-- Go `host.GetStatusCode`; `none` is the panic of the type assertion
`s.w.(*bufferingResponseWriter)` on a writer of another type. -/
def GetStatusCode (s : requestState) : Option Nat :=
  match s.w.buffering with
  | none => none
  | some b => if b.statusCode = 0 then some 200 else some b.statusCode

/-- Go `host.SetStatusCode`. -/
def SetStatusCode (s : requestState) (statusCode : Nat) : requestState :=
  match s.w.buffering with
  | some b => { s with w := { s.w with buffering := some { b with statusCode := statusCode } } }
  | none => { s with w := WriteHeader s.w statusCode }

/-- Go `host.ResponseBodyReader`, as the bytes that the returned reader yields; `none`
is the panic of the type assertion on a writer that is not buffering. -/
def ResponseBodyReader (s : requestState) : Option (List UInt8) :=
  match s.w.buffering with
  | none => none
  | some b => some b.body

/-- Go `host.ResponseBodyWriter`: the captured body of a buffering writer is reset;
the sink returned is the writer of the state in both cases. -/
def ResponseBodyWriter (s : requestState) : requestState :=
  match s.w.buffering with
  | some b => { s with w := { s.w with buffering := some { b with body := [] } } }
  | none => s

/-! ## Sequences of request header calls -/

/-- A call of one of the three mutating request header accessors. -/
inductive HeaderOp where
  | set (name value : String)
  | add (name value : String)
  | remove (name : String)

/-- The accessor call that a `HeaderOp` stands for. -/
def HeaderOp.run (s : requestState) : HeaderOp → requestState
  | .set name value => SetRequestHeaderValue s name value
  | .add name value => AddRequestHeaderValue s name value
  | .remove name => RemoveRequestHeader s name

/-- A sequence of calls, run from left to right. -/
def runHeaderOps (s : requestState) (ops : List HeaderOp) : requestState :=
  ops.foldl HeaderOp.run s

/-- The call stores a value under the key `Host`: a set or an add with a name whose
canonical form is `Host`. -/
def HeaderOp.storesHost : HeaderOp → Bool
  | .set name _ => CanonicalMIMEHeaderKey name == "Host"
  | .add name _ => CanonicalMIMEHeaderKey name == "Host"
  | .remove _ => false

/-! ## The model on concrete inputs -/

theorem CanonicalMIMEHeaderKey_content_type :
    CanonicalMIMEHeaderKey "content-type" = "Content-Type" := by decide

theorem CanonicalMIMEHeaderKey_upper_host : CanonicalMIMEHeaderKey "HOST" = "Host" := by decide

theorem CanonicalMIMEHeaderKey_colon : CanonicalMIMEHeaderKey "Trailer:x-y" = "Trailer:x-y" := by
  decide

theorem CanonicalMIMEHeaderKey_space : CanonicalMIMEHeaderKey "a b" = "a b" := by decide

theorem sortStrings_sample : sortStrings ["b", "a", "Host", ""] = ["", "Host", "a", "b"] := by
  decide

theorem trailerNames_sample :
    trailerNames [("Trailer:B", ["1"]), ("X", []), ("Trailer:A", ["2"])] = ["A", "B"] := by
  decide

/-! ## Sorting -/

theorem sortStrings_perm (l : List String) : (sortStrings l).Perm l :=
  List.perm_insertionSort leStr l

theorem sortStrings_sorted (l : List String) : (sortStrings l).Sorted leStr :=
  List.sorted_insertionSort leStr l

theorem sortStrings_congr {l₁ l₂ : List String} (h : l₁.Perm l₂) :
    sortStrings l₁ = sortStrings l₂ :=
  List.eq_of_perm_of_sorted
    (((sortStrings_perm l₁).trans h).trans (sortStrings_perm l₂).symm)
    (sortStrings_sorted l₁) (sortStrings_sorted l₂)

theorem mem_sortStrings {n : String} {l : List String} : n ∈ sortStrings l ↔ n ∈ l :=
  (sortStrings_perm l).mem_iff

/-! ## Strings -/

theorem HasPrefix_append (p t : String) : HasPrefix (p ++ t) p = true := by
  simp [HasPrefix, String.data_append]

theorem sliceFrom_append (p t : String) : sliceFrom (p ++ t) (len p) = t := by
  simp [sliceFrom, len, String.data_append]

theorem append_sliceFrom (k p : String) (h : HasPrefix k p = true) :
    p ++ sliceFrom k (len p) = k := by
  unfold HasPrefix at h
  obtain ⟨t, ht⟩ := List.isPrefixOf_iff_prefix.mp h
  apply String.ext
  simp [sliceFrom, len, String.data_append, ← ht]

/-! ## The enumeration loops -/

theorem foldl_plain_names (header : Header) (acc : List String) :
    header.foldl (fun names e => if HasPrefix e.1 TrailerPrefix then names else names ++ [e.1]) acc
      = acc ++ header.keys.filter (fun n => !HasPrefix n TrailerPrefix) := by
  induction header generalizing acc with
  | nil => simp [Header.keys]
  | cons e t ih =>
    simp only [List.foldl_cons, ih, Header.keys, List.map_cons, List.filter_cons]
    cases h : HasPrefix e.1 TrailerPrefix <;> simp [Header.keys]

theorem foldl_trailer_names (header : Header) (acc : List String) :
    header.foldl (fun names e =>
        if HasPrefix e.1 TrailerPrefix then names ++ [sliceFrom e.1 (len TrailerPrefix)]
        else names) acc
      = acc ++ (header.keys.filter (fun n => HasPrefix n TrailerPrefix)).map
          (fun n => sliceFrom n (len TrailerPrefix)) := by
  induction header generalizing acc with
  | nil => simp [Header.keys]
  | cons e t ih =>
    simp only [List.foldl_cons, ih, Header.keys, List.map_cons, List.filter_cons]
    cases h : HasPrefix e.1 TrailerPrefix <;> simp [Header.keys]

theorem GetResponseHeaderNames_eq (s : requestState) :
    GetResponseHeaderNames s
      = sortStrings (s.w.header.keys.filter (fun n => !HasPrefix n TrailerPrefix)) := by
  unfold GetResponseHeaderNames
  simp only [foldl_plain_names, List.nil_append]
  split
  · next h =>
    have : s.w.header = [] := List.length_eq_zero.mp h
    simp [this, Header.keys, sortStrings]
  · split
    · next h =>
      rw [List.length_eq_zero.mp h]; rfl
    · rfl

theorem trailerNames_eq (header : Header) :
    trailerNames header
      = sortStrings ((header.keys.filter (fun n => HasPrefix n TrailerPrefix)).map
          (fun n => sliceFrom n (len TrailerPrefix))) := by
  unfold trailerNames
  rw [foldl_trailer_names, List.nil_append]

theorem mem_trailerNames (header : Header) (t : String) :
    t ∈ trailerNames header ↔
      ∃ k ∈ header.keys, HasPrefix k TrailerPrefix = true ∧
        sliceFrom k (len TrailerPrefix) = t := by
  rw [trailerNames_eq, mem_sortStrings]
  simp [List.mem_filter, and_assoc]

theorem mem_GetResponseHeaderNames (s : requestState) (n : String) :
    n ∈ GetResponseHeaderNames s ↔
      n ∈ s.w.header.keys ∧ HasPrefix n TrailerPrefix = false := by
  rw [GetResponseHeaderNames_eq, mem_sortStrings]
  simp [List.mem_filter]

/-! ## Canonical header keys -/

theorem toNat_ofNat_ascii (n : Nat) (h : n < 256) : (Char.ofNat n).toNat = n := by
  have hv : n.isValidChar := Or.inl (by omega)
  simp [Char.ofNat, hv, Char.ofNatAux, Char.toNat, UInt32.toNat]

theorem canonByte_eq (upper : Bool) (c : Char) :
    canonByte upper c = if upper then c.toLower.toUpper else c.toLower := by
  unfold canonByte isLowerByte isUpperByte toLower Char.toLower Char.toUpper
  by_cases hU : 65 ≤ c.toNat ∧ c.toNat ≤ 90
  · have h1 : ¬ (97 ≤ c.toNat ∧ c.toNat ≤ 122) := by omega
    have h2 : (Char.ofNat (c.toNat + 32)).toNat = c.toNat + 32 :=
      toNat_ofNat_ascii _ (by omega)
    cases upper <;> simp [hU, h1, h2]
  · by_cases hL : 97 ≤ c.toNat ∧ c.toNat ≤ 122
    · cases upper <;> simp [hU, hL]
    · cases upper <;> simp [hU, hL]

theorem validHeaderFieldByte_toLower (c : Char) :
    validHeaderFieldByte c.toLower = validHeaderFieldByte c := by
  unfold Char.toLower
  by_cases hU : 65 ≤ c.toNat ∧ c.toNat ≤ 90
  · have h2 : (Char.ofNat (c.toNat + 32)).toNat = c.toNat + 32 :=
      toNat_ofNat_ascii _ (by omega)
    have h3 : 97 ≤ c.toNat + 32 ∧ c.toNat + 32 ≤ 122 := by omega
    simp [validHeaderFieldByte, hU, h2, h3]
  · simp [hU]

theorem canonLoop_congr (a b : List Char) (upper : Bool)
    (h : a.map Char.toLower = b.map Char.toLower) : canonLoop upper a = canonLoop upper b := by
  induction a generalizing b upper with
  | nil =>
    cases b with
    | nil => rfl
    | cons d ds => simp at h
  | cons c cs ih =>
    cases b with
    | nil => simp at h
    | cons d ds =>
      simp only [List.map_cons, List.cons.injEq] at h
      have hc : canonByte upper c = canonByte upper d := by
        rw [canonByte_eq, canonByte_eq, h.1]
      simp only [canonLoop, hc]
      rw [ih ds _ h.2]

theorem valid_congr (a b : List Char) (h : a.map Char.toLower = b.map Char.toLower)
    (ha : ∀ c ∈ a, validHeaderFieldByte c = true) : ∀ d ∈ b, validHeaderFieldByte d = true := by
  induction a generalizing b with
  | nil =>
    cases b with
    | nil => simp
    | cons d ds => simp at h
  | cons c cs ih =>
    cases b with
    | nil => simp at h
    | cons d ds =>
      simp only [List.map_cons, List.cons.injEq] at h
      intro e he
      rcases List.mem_cons.mp he with rfl | he
      · rw [← validHeaderFieldByte_toLower, ← h.1, validHeaderFieldByte_toLower]
        exact ha c (List.mem_cons_self _ _)
      · exact ih ds h.2 (fun x hx => ha x (List.mem_cons_of_mem _ hx)) e he

theorem scanKey_valid (a : List Char) (noCanon : Bool)
    (ha : ∀ c ∈ a, validHeaderFieldByte c = true) : scanKey a noCanon = some noCanon := by
  induction a with
  | nil => rfl
  | cons c cs ih =>
    have hc := ha c (List.mem_cons_self _ _)
    simp only [scanKey, hc, if_true]
    exact ih (fun x hx => ha x (List.mem_cons_of_mem _ hx))

theorem scanKey_noCanon (a : List Char) : scanKey a true ≠ some false := by
  induction a with
  | nil => simp [scanKey]
  | cons d ds ihd =>
    simp only [scanKey]
    split
    · exact ihd
    · split
      · exact ihd
      · simp

theorem scanKey_invalid (a : List Char) (noCanon : Bool)
    (ha : ∃ c ∈ a, validHeaderFieldByte c = false) : scanKey a noCanon ≠ some false := by
  induction a generalizing noCanon with
  | nil => simp at ha
  | cons c cs ih =>
    cases hc : validHeaderFieldByte c with
    | true =>
      simp only [scanKey, hc, if_true]
      apply ih
      obtain ⟨x, hx, hv⟩ := ha
      rcases List.mem_cons.mp hx with rfl | hx
      · rw [hc] at hv; cases hv
      · exact ⟨x, hx, hv⟩
    | false =>
      simp only [scanKey, hc]
      by_cases hs : (c == ' ') = true
      · simp only [hs, if_true, Bool.false_eq_true, if_false]
        exact scanKey_noCanon cs
      · simp [hs]

theorem canonicalMIMEHeaderKey_valid (a : List Char)
    (ha : ∀ c ∈ a, validHeaderFieldByte c = true) :
    (canonicalMIMEHeaderKey a).1 = canonLoop true a := by
  simp [canonicalMIMEHeaderKey, scanKey_valid a false ha]

theorem canonicalMIMEHeaderKey_invalid (a : List Char)
    (ha : ∃ c ∈ a, validHeaderFieldByte c = false) : (canonicalMIMEHeaderKey a).1 = a := by
  have h := scanKey_invalid a false ha
  unfold canonicalMIMEHeaderKey
  split
  · rfl
  · rfl
  · next h1 => exact absurd h1 h

theorem quickCheck_cases (s : List Char) (upper : Bool) (rest : List Char) :
    quickCheck s upper rest = s ∨ quickCheck s upper rest = (canonicalMIMEHeaderKey s).1 := by
  induction rest generalizing upper with
  | nil => exact Or.inl rfl
  | cons c cs ih =>
    simp only [quickCheck]
    split
    · exact Or.inl rfl
    · split
      · exact Or.inr rfl
      · split
        · exact Or.inr rfl
        · exact ih _

theorem quickCheck_valid (s : List Char) (hs : ∀ c ∈ s, validHeaderFieldByte c = true)
    (rest init : List Char) (upper : Bool) (hsplit : s = init ++ rest)
    (hinit : canonLoop true s = init ++ canonLoop upper rest) :
    quickCheck s upper rest = canonLoop true s := by
  induction rest generalizing init upper with
  | nil =>
    simp only [quickCheck]
    rw [hinit, hsplit]; simp [canonLoop]
  | cons c cs ih =>
    have hc : validHeaderFieldByte c = true := hs c (by rw [hsplit]; simp)
    simp only [quickCheck, hc, Bool.not_true, Bool.false_eq_true, if_false]
    split
    · exact canonicalMIMEHeaderKey_valid s hs
    · next h1 =>
      split
      · exact canonicalMIMEHeaderKey_valid s hs
      · next h2 =>
        have hb : canonByte upper c = c := by simp [canonByte, h1, h2]
        apply ih (init ++ [c]) (c == '-')
        · rw [hsplit]; simp
        · rw [hinit]; simp [canonLoop, hb]

theorem CanonicalMIMEHeaderKey_valid (s : String) (hs : validHeaderName s) :
    CanonicalMIMEHeaderKey s = String.mk (canonLoop true s.data) := by
  unfold CanonicalMIMEHeaderKey
  rw [quickCheck_valid s.data hs s.data [] true rfl rfl]

theorem CanonicalMIMEHeaderKey_invalid (s : String)
    (hs : ∃ c ∈ s.data, validHeaderFieldByte c = false) : CanonicalMIMEHeaderKey s = s := by
  unfold CanonicalMIMEHeaderKey
  rcases quickCheck_cases s.data true s.data with h | h
  · rw [h]
  · rw [h, canonicalMIMEHeaderKey_invalid s.data hs]

theorem CanonicalMIMEHeaderKey_trailer (name : String) :
    CanonicalMIMEHeaderKey (TrailerPrefix ++ name) = TrailerPrefix ++ name := by
  apply CanonicalMIMEHeaderKey_invalid
  refine ⟨':', ?_, by decide⟩
  simp [TrailerPrefix]

theorem CanonicalMIMEHeaderKey_congr (n n1 : String) (hn : validHeaderName n)
    (hcase : sameUpToCase n n1) :
    CanonicalMIMEHeaderKey n = CanonicalMIMEHeaderKey n1 := by
  rw [CanonicalMIMEHeaderKey_valid n hn,
    CanonicalMIMEHeaderKey_valid n1 (valid_congr _ _ hcase hn),
    canonLoop_congr _ _ true hcase]

/-! ## Header maps -/

theorem Header.index_assign (h : Header) (k : String) (vs : List String) :
    (h.assign k vs).index k = vs := by
  simp [Header.assign, Header.index, List.lookup]

theorem Header.keys_assign (h : Header) (k : String) (vs : List String) :
    (h.assign k vs).keys = k :: (h.delete k).keys := rfl

theorem Header.Values_Set (h : Header) (n n1 v : String)
    (hk : CanonicalMIMEHeaderKey n1 = CanonicalMIMEHeaderKey n) :
    (h.Set n v).Values n1 = [v] := by
  unfold Header.Values Header.Set
  rw [hk, Header.index_assign]

theorem Header.WF_delete (h : Header) (k : String) (hwf : h.WF) : (h.delete k).WF := by
  unfold Header.WF Header.keys Header.delete at *
  exact (List.Nodup.sublist (List.Sublist.map _ (List.filter_sublist _)) hwf)

theorem Header.WF_assign (h : Header) (k : String) (vs : List String) (hwf : h.WF) :
    (h.assign k vs).WF := by
  have hd := Header.WF_delete h k hwf
  unfold Header.WF at *
  rw [Header.keys_assign, List.nodup_cons]
  refine ⟨?_, hd⟩
  simp [Header.keys, Header.delete, List.mem_filter]

theorem mem_trailerNames_setTrailer (header : Header) (name value : String) :
    name ∈ trailerNames (setTrailer header name value) := by
  rw [mem_trailerNames]
  refine ⟨TrailerPrefix ++ name, ?_, HasPrefix_append _ _, sliceFrom_append _ _⟩
  simp [setTrailer, Header.Set, CanonicalMIMEHeaderKey_trailer, Header.keys_assign]

theorem getTrailers_setTrailer (header : Header) (name value : String) :
    getTrailers (setTrailer header name value) name = [value] :=
  Header.Values_Set header _ _ value rfl

/-! ## Request header names -/

/-- C1, evaluated on the code: with an empty host and a request header map whose only
key carries the trailer prefix, `GetRequestHeaderNames` does not return the empty
result but the one-element list holding the empty string; with a host and a plain
header next to the trailer key, an empty-string entry is listed before the names.
The first state is the one reached by `SetRequestHeaderValue "Trailer:X" "1"` on a
request without host and headers.
The slice is allocated with one slot per key and the slots of skipped trailer keys
keep their zero value. -/
theorem GetRequestHeaderNames_trailer_slot :
    GetRequestHeaderNames { r := { Host := "", Header := [("Trailer:X", ["1"])] } } = [""] ∧
    GetRequestHeaderNames (SetRequestHeaderValue {} "Trailer:X" "1") = [""] ∧
    GetRequestHeaderNames
        { r := { Host := "example.com", Header := [("Trailer:X", ["1"]), ("Accept", ["a"])] } }
      = ["", "Accept", "Host"] := by
  decide

/-- C2: with an empty request header map, `GetRequestHeaderNames` returns exactly
`["Host"]` when the request host is non-empty, and the empty (nil) result when the
host is empty. -/
theorem GetRequestHeaderNames_empty_header (s : requestState) (hH : s.r.Header = []) :
    (s.r.Host ≠ "" → GetRequestHeaderNames s = ["Host"]) ∧
    (s.r.Host = "" → GetRequestHeaderNames s = []) := by
  constructor
  · intro h
    simp [GetRequestHeaderNames, hH, h, requestNamesLoop, requestNamesFinish, sortStrings]
  · intro h
    simp [GetRequestHeaderNames, hH, h]

theorem GetRequestHeaderNames_empty_header_witness :
    GetRequestHeaderNames { r := { Host := "example.com", Header := [] } } = ["Host"] ∧
    GetRequestHeaderNames { r := { Host := "", Header := [] } } = [] :=
  ⟨(GetRequestHeaderNames_empty_header
      { r := { Host := "example.com", Header := [] } } rfl).1 (by decide),
    (GetRequestHeaderNames_empty_header { r := { Host := "", Header := [] } } rfl).2 rfl⟩

/-! ## Response header names and trailer names -/

/-- C3: for every response header map (one entry per key), `GetResponseHeaderNames`
is the sorted list of the keys that do not start with the trailer prefix: it is
sorted, has no repetition, holds exactly those keys, is the empty (nil) result when
every key carries the prefix (in particular when the map is empty), and is the same
for every iteration order of the map. -/
theorem GetResponseHeaderNames_sorted_plain_keys (s : requestState) (hwf : s.w.header.WF) :
    GetResponseHeaderNames s
        = sortStrings (s.w.header.keys.filter (fun n => !HasPrefix n TrailerPrefix)) ∧
    (GetResponseHeaderNames s).Sorted leStr ∧
    (GetResponseHeaderNames s).Nodup ∧
    (∀ n, n ∈ GetResponseHeaderNames s ↔
        n ∈ s.w.header.keys ∧ HasPrefix n TrailerPrefix = false) ∧
    ((∀ n ∈ s.w.header.keys, HasPrefix n TrailerPrefix = true) →
        GetResponseHeaderNames s = []) ∧
    (∀ s1 : requestState, s1.w.header.Perm s.w.header →
        GetResponseHeaderNames s1 = GetResponseHeaderNames s) := by
  refine ⟨GetResponseHeaderNames_eq s, ?_, ?_, mem_GetResponseHeaderNames s, ?_, ?_⟩
  · rw [GetResponseHeaderNames_eq]; exact sortStrings_sorted _
  · rw [GetResponseHeaderNames_eq]
    exact (sortStrings_perm _).nodup_iff.mpr (List.Nodup.filter _ hwf)
  · intro h
    rw [GetResponseHeaderNames_eq]
    have : s.w.header.keys.filter (fun n => !HasPrefix n TrailerPrefix) = [] := by
      rw [List.filter_eq_nil_iff]
      intro n hn
      simp [h n hn]
    rw [this]; rfl
  · intro s1 hp
    rw [GetResponseHeaderNames_eq, GetResponseHeaderNames_eq]
    exact sortStrings_congr ((hp.map Prod.fst).filter _)

theorem GetResponseHeaderNames_sorted_plain_keys_witness :
    Header.WF [("X-B", ["1"]), ("Trailer:T", ["2"]), ("Accept", ["3", "4"])] ∧
    GetResponseHeaderNames
        { w := { header := [("X-B", ["1"]), ("Trailer:T", ["2"]), ("Accept", ["3", "4"])] } }
      = ["Accept", "X-B"] :=
  ⟨by decide,
    (GetResponseHeaderNames_sorted_plain_keys
      { w := { header := [("X-B", ["1"]), ("Trailer:T", ["2"]), ("Accept", ["3", "4"])] } }
      (by decide)).1.trans (by decide)⟩

/-- C4: for every header map, `trailerNames` is the sorted list of the keys that start
with the trailer prefix, with the prefix stripped: it is sorted, holds exactly the
stripped keys, is empty when no key carries the prefix, and is the same for every
permutation of the entries. -/
theorem trailerNames_sorted_stripped_keys (header : Header) :
    trailerNames header
        = sortStrings ((header.keys.filter (fun n => HasPrefix n TrailerPrefix)).map
            (fun n => sliceFrom n (len TrailerPrefix))) ∧
    (trailerNames header).Sorted leStr ∧
    (∀ t, t ∈ trailerNames header ↔
        ∃ k ∈ header.keys, HasPrefix k TrailerPrefix = true ∧
          sliceFrom k (len TrailerPrefix) = t) ∧
    ((∀ k ∈ header.keys, HasPrefix k TrailerPrefix = false) → trailerNames header = []) ∧
    (∀ h1 : Header, h1.Perm header → trailerNames h1 = trailerNames header) := by
  refine ⟨trailerNames_eq header, ?_, mem_trailerNames header, ?_, ?_⟩
  · rw [trailerNames_eq]; exact sortStrings_sorted _
  · intro h
    rw [trailerNames_eq]
    have : header.keys.filter (fun n => HasPrefix n TrailerPrefix) = [] := by
      rw [List.filter_eq_nil_iff]
      intro n hn
      simp [h n hn]
    rw [this]; rfl
  · intro h1 hp
    rw [trailerNames_eq, trailerNames_eq]
    exact sortStrings_congr (((hp.map Prod.fst).filter _).map _)

/-! ## Set then get -/

/-- C5 as stated fails: `a:b` and `A:b` differ only in letter case, yet after
`SetResponseHeaderValue` under `a:b` on an empty map, `GetResponseHeaderValues` for
`A:b` returns nil.  A key with a byte that is not a token byte is not canonicalised. -/
theorem SetResponseHeaderValue_case_counterexample :
    sameUpToCase "a:b" "A:b" ∧
    GetResponseHeaderValues (SetResponseHeaderValue {} "a:b" "v") "A:b" = [] ∧
    GetResponseHeaderValues (SetResponseHeaderValue {} "a:b" "v") "A:b" ≠ ["v"] := by
  decide

/-- C5 amended: on the response side, for every prior state, every value `v`, every
name `n` and every name `n1` that differs from `n` only in letter case, where either
`n` is made of header token characters only or `n1` is `n` itself: after
`SetResponseHeaderValue n v`, `GetResponseHeaderValues n1` returns exactly `[v]`. -/
theorem SetResponseHeaderValue_then_get (s : requestState) (n v n1 : String)
    (hcase : sameUpToCase n n1) (hn : validHeaderName n ∨ n1 = n) :
    GetResponseHeaderValues (SetResponseHeaderValue s n v) n1 = [v] := by
  unfold GetResponseHeaderValues SetResponseHeaderValue
  apply Header.Values_Set
  rcases hn with hn | rfl
  · exact (CanonicalMIMEHeaderKey_congr n n1 hn hcase).symm
  · rfl

theorem SetResponseHeaderValue_then_get_witness :
    sameUpToCase "content-type" "Content-TYPE" ∧
    (validHeaderName "content-type" ∨ "Content-TYPE" = "content-type") ∧
    GetResponseHeaderValues
        (SetResponseHeaderValue { w := { header := [("Content-Type", ["a", "b"])] } }
          "content-type" "text/plain")
        "Content-TYPE"
      = ["text/plain"] :=
  ⟨by decide, Or.inl (by decide),
    SetResponseHeaderValue_then_get { w := { header := [("Content-Type", ["a", "b"])] } }
      "content-type" "text/plain" "Content-TYPE" (by decide) (Or.inl (by decide))⟩

/-- C6 as stated fails for the name `Host`: with request host `example.com`, after
`SetRequestHeaderValue "Host" "other"` the call `GetRequestHeaderValues "Host"` still
returns `["example.com"]`, not `["other"]`. -/
theorem SetRequestHeaderValue_host_counterexample :
    GetRequestHeaderValues
        (SetRequestHeaderValue { r := { Host := "example.com", Header := [] } } "Host" "other")
        "Host"
      = ["example.com"] ∧
    GetRequestHeaderValues
        (SetRequestHeaderValue { r := { Host := "example.com", Header := [] } } "Host" "other")
        "Host"
      ≠ ["other"] := by
  decide

/-- C6 amended: on the request side, for every prior state, name `n` and value `v`:
after `SetRequestHeaderValue n v`, `GetRequestHeaderValues n` returns exactly `[v]`
when the canonical form of `n` is not `Host`, and the one-element list holding the
host field of the prior state when it is. -/
theorem SetRequestHeaderValue_then_get (s : requestState) (n v : String) :
    GetRequestHeaderValues (SetRequestHeaderValue s n v) n
      = if CanonicalMIMEHeaderKey n = "Host" then [s.r.Host] else [v] := by
  unfold GetRequestHeaderValues SetRequestHeaderValue
  by_cases h : CanonicalMIMEHeaderKey n = "Host"
  · simp [h]
  · simp only [h, if_false]
    exact Header.Values_Set s.r.Header n n v rfl

/-- C7: for every request state and every name whose canonical form is `Host`, in
particular every spelling of `host` in any letter case, `GetRequestHeaderValues`
returns the one-element list holding the host field of the request, whatever the
request header map holds. -/
theorem GetRequestHeaderValues_host (s : requestState) (name : String)
    (h : CanonicalMIMEHeaderKey name = "Host" ∨ sameUpToCase "host" name) :
    GetRequestHeaderValues s name = [s.r.Host] := by
  have hk : CanonicalMIMEHeaderKey name = "Host" := by
    rcases h with h | h
    · exact h
    · rw [← CanonicalMIMEHeaderKey_congr "host" name (by decide) h]
      decide
  simp [GetRequestHeaderValues, hk]

theorem GetRequestHeaderValues_host_witness :
    (CanonicalMIMEHeaderKey "HOST" = "Host" ∨ sameUpToCase "host" "HOST") ∧
    GetRequestHeaderValues
        { r := { Host := "example.com", Header := [("Host", ["other", "more"])] } } "HOST"
      = ["example.com"] :=
  ⟨Or.inl (by decide),
    GetRequestHeaderValues_host
      { r := { Host := "example.com", Header := [("Host", ["other", "more"])] } } "HOST"
      (Or.inl (by decide))⟩

/-! ## Trailers -/

/-- C8: for every header map, trailer name `N` and value `v`: after `setTrailer N v`
the enumeration `trailerNames` contains `N`, without the prefix, and `getTrailers N`
returns exactly `[v]`; the same holds through the response trailer accessors. -/
theorem setTrailer_roundtrip (header : Header) (s : requestState) (name value : String) :
    name ∈ trailerNames (setTrailer header name value) ∧
    getTrailers (setTrailer header name value) name = [value] ∧
    name ∈ GetResponseTrailerNames (SetResponseTrailerValue s name value) ∧
    GetResponseTrailerValues (SetResponseTrailerValue s name value) name = [value] :=
  ⟨mem_trailerNames_setTrailer header name value, getTrailers_setTrailer header name value,
    mem_trailerNames_setTrailer s.w.header name value,
    getTrailers_setTrailer s.w.header name value⟩

/-- C9: for every response header map, no name returned by `GetResponseHeaderNames`
carries the trailer prefix, every name `t` returned by `GetResponseTrailerNames`
comes from the key `Trailer:` followed by `t`, every key is reported by exactly one
of the two enumerations, and the two results together have one name per entry. -/
theorem header_trailer_partition (s : requestState) :
    (∀ n ∈ GetResponseHeaderNames s, HasPrefix n TrailerPrefix = false) ∧
    (∀ t ∈ GetResponseTrailerNames s, TrailerPrefix ++ t ∈ s.w.header.keys) ∧
    (∀ k ∈ s.w.header.keys,
      (k ∈ GetResponseHeaderNames s ∧
          ¬ ∃ t ∈ GetResponseTrailerNames s, TrailerPrefix ++ t = k) ∨
      (k ∉ GetResponseHeaderNames s ∧
          ∃ t ∈ GetResponseTrailerNames s, TrailerPrefix ++ t = k)) ∧
    (GetResponseHeaderNames s).length + (GetResponseTrailerNames s).length
      = s.w.header.length := by
  refine ⟨?_, ?_, ?_, ?_⟩
  · intro n hn
    exact ((mem_GetResponseHeaderNames s n).mp hn).2
  · intro t ht
    obtain ⟨k, hk, hp, hs⟩ := (mem_trailerNames s.w.header t).mp ht
    rw [← hs, append_sliceFrom k TrailerPrefix hp]
    exact hk
  · intro k hk
    cases hp : HasPrefix k TrailerPrefix with
    | false =>
      refine Or.inl ⟨(mem_GetResponseHeaderNames s k).mpr ⟨hk, hp⟩, ?_⟩
      rintro ⟨t, -, rfl⟩
      rw [HasPrefix_append] at hp
      cases hp
    | true =>
      refine Or.inr ⟨?_, sliceFrom k (len TrailerPrefix), ?_, append_sliceFrom k _ hp⟩
      · intro hmem
        rw [((mem_GetResponseHeaderNames s k).mp hmem).2] at hp
        cases hp
      · exact (mem_trailerNames s.w.header _).mpr ⟨k, hk, hp, rfl⟩
  · unfold GetResponseTrailerNames
    rw [GetResponseHeaderNames_eq, trailerNames_eq,
      (sortStrings_perm _).length_eq, (sortStrings_perm _).length_eq, List.length_map]
    have h := List.length_eq_length_filter_add (l := s.w.header.keys)
      (fun n => HasPrefix n TrailerPrefix)
    simp only [Header.keys, List.length_map] at h ⊢
    omega

/-- C10: `addTrailer` yields the same map as `setTrailer`, so after `addTrailer N v1`,
a following `addTrailer N v2` or `setTrailer N v2` makes `getTrailers N` return
exactly `[v2]`, never `[v1, v2]`. -/
theorem addTrailer_eq_setTrailer (header : Header) (name v1 v2 : String) :
    addTrailer header name v1 = setTrailer header name v1 ∧
    getTrailers (addTrailer (addTrailer header name v1) name v2) name = [v2] ∧
    getTrailers (setTrailer (addTrailer header name v1) name v2) name = [v2] ∧
    getTrailers (addTrailer (addTrailer header name v1) name v2) name ≠ [v1, v2] ∧
    getTrailers (setTrailer (addTrailer header name v1) name v2) name ≠ [v1, v2] := by
  have h1 : getTrailers (addTrailer (addTrailer header name v1) name v2) name = [v2] :=
    getTrailers_setTrailer _ name v2
  have h2 : getTrailers (setTrailer (addTrailer header name v1) name v2) name = [v2] :=
    getTrailers_setTrailer _ name v2
  refine ⟨rfl, h1, h2, ?_, ?_⟩
  · rw [h1]; simp
  · rw [h2]; simp

/-! ## More on header maps -/

theorem lookup_filter_ne (h : Header) (k k1 : String) (hne : k1 ≠ k) :
    List.lookup k1 (h.filter (fun e => e.1 != k)) = List.lookup k1 h := by
  induction h with
  | nil => rfl
  | cons e t ih =>
    rcases e with ⟨a, vs⟩
    by_cases he : a = k
    · subst he
      have h1 : (k1 == a) = false := by simp [hne]
      simp [List.filter_cons, List.lookup, h1, ih]
    · have h2 : (a != k) = true := by simp [he]
      simp only [List.filter_cons, h2, if_true, List.lookup]
      cases hk : (k1 == a) with
      | true => rfl
      | false => exact ih

theorem Header.index_delete_ne (h : Header) (k k1 : String) (hne : k1 ≠ k) :
    (h.delete k).index k1 = h.index k1 := by
  unfold Header.index Header.delete
  rw [lookup_filter_ne h k k1 hne]

theorem Header.index_assign_ne (h : Header) (k k1 : String) (vs : List String) (hne : k1 ≠ k) :
    (h.assign k vs).index k1 = h.index k1 := by
  have h1 : (k1 == k) = false := by simp [hne]
  have h2 := Header.index_delete_ne h k k1 hne
  unfold Header.index at h2 ⊢
  unfold Header.assign
  rw [List.lookup_cons, h1]
  exact h2

theorem Header.keys_delete (h : Header) (k : String) :
    (h.delete k).keys = h.keys.filter (fun n => n != k) := by
  unfold Header.keys Header.delete
  induction h with
  | nil => rfl
  | cons e t ih =>
    simp only [List.filter_cons, List.map_cons]
    cases he : (e.1 != k) <;> simp [ih]

theorem Header.mem_keys_delete (h : Header) (k n : String) :
    n ∈ (h.delete k).keys ↔ n ∈ h.keys ∧ n ≠ k := by
  rw [Header.keys_delete]
  simp [List.mem_filter]

theorem trailerKey_injective (n n1 : String) (h : TrailerPrefix ++ n1 = TrailerPrefix ++ n) :
    n1 = n := by
  have hd := congrArg String.data h
  simp only [String.data_append] at hd
  exact String.ext (List.append_cancel_left hd)

theorem getTrailers_setTrailer_ne (header : Header) (n n1 v : String) (hne : n1 ≠ n) :
    getTrailers (setTrailer header n v) n1 = getTrailers header n1 := by
  unfold getTrailers setTrailer Header.Values Header.Set
  rw [CanonicalMIMEHeaderKey_trailer, CanonicalMIMEHeaderKey_trailer]
  exact Header.index_assign_ne header _ _ _ (fun h => hne (trailerKey_injective n n1 h))

theorem mem_trailerNames_setTrailer_ne (header : Header) (n n1 v : String) (hne : n1 ≠ n) :
    n1 ∈ trailerNames (setTrailer header n v) ↔ n1 ∈ trailerNames header := by
  rw [mem_trailerNames, mem_trailerNames]
  unfold setTrailer Header.Set
  rw [CanonicalMIMEHeaderKey_trailer, Header.keys_assign]
  constructor
  · rintro ⟨k, hk, hp, hs⟩
    rcases List.mem_cons.mp hk with rfl | hk
    · rw [sliceFrom_append] at hs
      exact absurd hs.symm hne
    · exact ⟨k, ((Header.mem_keys_delete header _ k).mp hk).1, hp, hs⟩
  · rintro ⟨k, hk, hp, hs⟩
    refine ⟨k, List.mem_cons_of_mem _ ((Header.mem_keys_delete header _ k).mpr ⟨hk, ?_⟩), hp, hs⟩
    intro hk2
    rw [hk2, sliceFrom_append] at hs
    exact hne hs.symm

/-! ## Streams -/

theorem getD_append_length (l : List (List UInt8)) (x : List UInt8) :
    (l ++ [x]).getD l.length [] = x := by
  simp [List.getD]

theorem getD_set_self (l : List (List UInt8)) (i : Nat) (x : List UInt8) (hi : i < l.length) :
    (l.set i x).getD i [] = x := by
  simp [List.getD, hi]

/-! ## Trailers of the request -/

/-- C11, evaluated on the code: the request trailer accessors work on the header map
of the response writer, the map of the response trailer accessors.  On a state with
no trailers, `SetRequestTrailerValue "X" "1"` makes `GetResponseTrailerNames` return
`["X"]` and `GetResponseTrailerValues "X"` return `["1"]`, and
`SetResponseTrailerValue` changes the request trailers in the same way; for every
state, the value set as a request trailer is read back as a response trailer. -/
theorem SetRequestTrailerValue_shared_container :
    GetResponseTrailerNames ({} : requestState) = [] ∧
    GetResponseTrailerValues ({} : requestState) "X" = [] ∧
    GetResponseTrailerNames (SetRequestTrailerValue {} "X" "1") = ["X"] ∧
    GetResponseTrailerValues (SetRequestTrailerValue {} "X" "1") "X" = ["1"] ∧
    GetRequestTrailerNames (SetResponseTrailerValue {} "X" "1") = ["X"] ∧
    GetRequestTrailerValues (SetResponseTrailerValue {} "X" "1") "X" = ["1"] ∧
    (∀ (s : requestState) (n v : String),
      GetResponseTrailerValues (SetRequestTrailerValue s n v) n = [v]) := by
  refine ⟨by decide, by decide, by decide, by decide, by decide, by decide, ?_⟩
  intro s n v
  exact getTrailers_setTrailer s.w.header n v

/-! ## The request URI -/

/-- C12: for every prior request state, `SetURI ""` does not fail, sets the request
URI, the raw path and the decoded path to `/`, clears the force-query flag and the
raw query, and `GetURI` then returns `/`. -/
theorem SetURI_empty (ParseRequestURI : String → Option URL) (s : requestState) :
    ∃ s1, SetURI ParseRequestURI s "" = some s1 ∧
      GetURI s1 = "/" ∧
      s1.r.URL.RawPath = "/" ∧ s1.r.URL.Path = "/" ∧
      s1.r.URL.ForceQuery = false ∧ s1.r.URL.RawQuery = "" ∧
      s1.r.RequestURI = "/" := by
  have hp : EscapedPath { RawPath := "/", Path := "/", ForceQuery := false, RawQuery := "" }
      = "/" := by decide
  refine ⟨{ s with r := { s.r with
      RequestURI := "/"
      URL := { RawPath := "/", Path := "/", ForceQuery := false, RawQuery := "" } } },
    ?_, ?_, rfl, rfl, rfl, rfl, rfl⟩
  · simp [SetURI]
  · simp only [GetURI, hp]
    decide

/-- C13: for every request URL, `GetURI` returns the escaped path, or `/` when the
escaped path is empty, followed by `?` and the raw query when the force-query flag is
set or the raw query is non-empty, and by nothing otherwise; the path `/a/b` with raw
query `x=1` gives `/a/b?x=1`, and an empty path with the force-query flag and an
empty query gives `/?`. -/
theorem GetURI_path_query (s : requestState) :
    GetURI s
        = (if EscapedPath s.r.URL = "" then "/" else EscapedPath s.r.URL) ++
          (if s.r.URL.ForceQuery = true ∨ s.r.URL.RawQuery ≠ "" then "?" ++ s.r.URL.RawQuery
            else "") ∧
    (∀ (s1 : requestState) (fq : Bool),
      s1.r.URL = { Path := "/a/b", RawPath := "", ForceQuery := fq, RawQuery := "x=1" } →
        GetURI s1 = "/a/b?x=1") ∧
    (∀ s1 : requestState,
      s1.r.URL = { Path := "", RawPath := "", ForceQuery := true, RawQuery := "" } →
        GetURI s1 = "/?") := by
  refine ⟨?_, ?_, ?_⟩
  · unfold GetURI
    by_cases hq : s.r.URL.ForceQuery = true ∨ s.r.URL.RawQuery ≠ ""
    · simp only [hq, if_true]
    · simp only [hq, if_false]
      exact (String.append_empty _).symm
  · intro s1 fq h
    unfold GetURI
    rw [h]
    cases fq <;> decide
  · intro s1 h
    unfold GetURI
    rw [h]
    decide

/-! ## Status code -/

/-- C14: with a buffering response writer whose status code is the unset value 0,
`GetStatusCode` returns 200. -/
theorem GetStatusCode_default (s : requestState) (b : bufferingResponseWriter)
    (hb : s.w.buffering = some b) (h0 : b.statusCode = 0) : GetStatusCode s = some 200 := by
  simp [GetStatusCode, hb, h0]

theorem GetStatusCode_default_witness :
    GetStatusCode { w := { buffering := some { statusCode := 0, body := [1, 2] } } }
      = some 200 :=
  GetStatusCode_default { w := { buffering := some { statusCode := 0, body := [1, 2] } } }
    { statusCode := 0, body := [1, 2] } rfl rfl

/-- C15 as stated fails: with the real writer, whose committed status is 404,
`GetStatusCode` does not return 404 but fails on its type assertion. -/
theorem GetStatusCode_real_writer_counterexample :
    GetStatusCode { w := { buffering := none, status := some 404 } } = none ∧
    GetStatusCode { w := { buffering := none, status := some 404 } } ≠ some 404 := by
  decide

/-- C15 amended: `GetStatusCode` is defined exactly when the response writer of the
state is a buffering writer; it then returns the buffered status, or 200 when that
is 0, and with the real writer the call fails. -/
theorem GetStatusCode_buffering_only (s : requestState) :
    (∀ b, s.w.buffering = some b →
      GetStatusCode s = some (if b.statusCode = 0 then 200 else b.statusCode)) ∧
    (s.w.buffering = none → GetStatusCode s = none) ∧
    ((GetStatusCode s).isSome = true ↔ s.w.buffering.isSome = true) := by
  refine ⟨?_, ?_, ?_⟩
  · intro b hb
    by_cases h0 : b.statusCode = 0 <;> simp [GetStatusCode, hb, h0]
  · intro hb
    simp [GetStatusCode, hb]
  · cases hb : s.w.buffering with
    | none => simp [GetStatusCode, hb]
    | some b => by_cases h0 : b.statusCode = 0 <;> simp [GetStatusCode, hb, h0]

/-- C19: with a buffering response writer, `SetStatusCode c` followed by
`GetStatusCode` returns `c` for every `c` other than 0 and returns 200 when `c` is 0,
which is also the result when the status was never set. -/
theorem SetStatusCode_then_get (s : requestState) (b : bufferingResponseWriter) (c : Nat)
    (hb : s.w.buffering = some b) :
    (c ≠ 0 → GetStatusCode (SetStatusCode s c) = some c) ∧
    (c = 0 → GetStatusCode (SetStatusCode s c) = some 200) ∧
    (c = 0 → b.statusCode = 0 → GetStatusCode (SetStatusCode s c) = GetStatusCode s) := by
  refine ⟨?_, ?_, ?_⟩
  · intro hc
    simp [GetStatusCode, SetStatusCode, hb, hc]
  · intro hc
    simp [GetStatusCode, SetStatusCode, hb, hc]
  · intro hc h0
    simp [GetStatusCode, SetStatusCode, hb, hc, h0]

theorem SetStatusCode_then_get_witness :
    GetStatusCode (SetStatusCode { w := { buffering := some { statusCode := 500 } } } 404)
      = some 404 ∧
    GetStatusCode (SetStatusCode { w := { buffering := some { statusCode := 500 } } } 0)
      = some 200 :=
  ⟨(SetStatusCode_then_get { w := { buffering := some { statusCode := 500 } } }
      { statusCode := 500 } 404 rfl).1 (by decide),
    (SetStatusCode_then_get { w := { buffering := some { statusCode := 500 } } }
      { statusCode := 500 } 0 rfl).2.1 rfl⟩

/-! ## Bodies -/

/-- C16: for every request state and every byte sequence `B`: after
`RequestBodyWriter`, writing `B` to the returned sink and reading the reader returned
by `RequestBodyReader` to its end yields exactly `B`, whatever the streams of the
state held before; written in two parts, the parts are read in order. -/
theorem RequestBodyWriter_then_read (s : requestState) (B B1 B2 : List UInt8) :
    (readAll (bufferWrite (RequestBodyWriter s).1 (RequestBodyWriter s).2 B)
      (RequestBodyReader (bufferWrite (RequestBodyWriter s).1 (RequestBodyWriter s).2 B))).1
      = B ∧
    (readAll
      (bufferWrite (bufferWrite (RequestBodyWriter s).1 (RequestBodyWriter s).2 B1)
        (RequestBodyWriter s).2 B2)
      (RequestBodyReader
        (bufferWrite (bufferWrite (RequestBodyWriter s).1 (RequestBodyWriter s).2 B1)
          (RequestBodyWriter s).2 B2))).1
      = B1 ++ B2 := by
  have hlt : s.streams.length < (s.streams ++ [([] : List UInt8)]).length := by simp
  constructor
  · simp only [readAll, bufferWrite, RequestBodyWriter, RequestBodyReader,
      getD_append_length, List.nil_append]
    exact getD_set_self _ _ _ hlt
  · simp only [readAll, bufferWrite, RequestBodyWriter, RequestBodyReader,
      getD_append_length, List.nil_append]
    rw [getD_set_self _ _ _ hlt, getD_set_self _ _ _ (by simp)]

/-- C17: with a buffering response writer, `ResponseBodyWriter` clears the captured
body, so that `ResponseBodyReader` called next yields no bytes, and leaves the
buffered status code and the response header map unchanged. -/
theorem ResponseBodyWriter_clears_body (s : requestState) (b : bufferingResponseWriter)
    (hb : s.w.buffering = some b) :
    ResponseBodyReader (ResponseBodyWriter s) = some [] ∧
    (ResponseBodyWriter s).w.buffering = some { statusCode := b.statusCode, body := [] } ∧
    GetStatusCode (ResponseBodyWriter s) = GetStatusCode s ∧
    (ResponseBodyWriter s).w.header = s.w.header := by
  simp [ResponseBodyReader, ResponseBodyWriter, GetStatusCode, hb]

theorem ResponseBodyWriter_clears_body_witness :
    ResponseBodyReader
        (ResponseBodyWriter
          { w := { header := [("A", ["1"])], buffering := some { statusCode := 404, body := [7] } } })
      = some [] :=
  (ResponseBodyWriter_clears_body
    { w := { header := [("A", ["1"])], buffering := some { statusCode := 404, body := [7] } } }
    { statusCode := 404, body := [7] } rfl).1

/-! ## Trailer names are exact -/

/-- C20: the key of a trailer is stored as it is given, without canonicalisation, so
for all names `N` and `N1` with `N1` different from `N`, also when they differ only
in letter case, `setTrailer N v` leaves `getTrailers N1` unchanged and leaves the
presence of `N1` in `trailerNames` unchanged, and `trailerNames` then lists `N`
itself. -/
theorem setTrailer_exact_name (header : Header) (n n1 v : String) (hne : n1 ≠ n) :
    CanonicalMIMEHeaderKey (TrailerPrefix ++ n) = TrailerPrefix ++ n ∧
    getTrailers (setTrailer header n v) n1 = getTrailers header n1 ∧
    n ∈ trailerNames (setTrailer header n v) ∧
    (n1 ∈ trailerNames (setTrailer header n v) ↔ n1 ∈ trailerNames header) :=
  ⟨CanonicalMIMEHeaderKey_trailer n, getTrailers_setTrailer_ne header n n1 v hne,
    mem_trailerNames_setTrailer header n v, mem_trailerNames_setTrailer_ne header n n1 v hne⟩

theorem setTrailer_exact_name_witness :
    "X-Id" ≠ "x-id" ∧ sameUpToCase "x-id" "X-Id" ∧
    getTrailers (setTrailer [("Trailer:X-Id", ["old"])] "x-id" "new") "X-Id" = ["old"] ∧
    trailerNames (setTrailer [("Trailer:X-Id", ["old"])] "x-id" "new") = ["X-Id", "x-id"] :=
  ⟨by decide, by decide,
    (setTrailer_exact_name [("Trailer:X-Id", ["old"])] "x-id" "X-Id" "new" (by decide)).2.1.trans
      (by decide),
    by decide⟩

/-! ## The loop of `GetRequestHeaderNames` -/

theorem requestNamesLoop_eq (header : Header) (init : List String) (k : Nat)
    (hk : (header.keys.filter (fun n => !HasPrefix n TrailerPrefix)).length ≤ k) :
    requestNamesLoop header (init ++ List.replicate k "") init.length
      = (init ++ header.keys.filter (fun n => !HasPrefix n TrailerPrefix) ++
          List.replicate
            (k - (header.keys.filter (fun n => !HasPrefix n TrailerPrefix)).length) "",
        init.length + (header.keys.filter (fun n => !HasPrefix n TrailerPrefix)).length) := by
  induction header generalizing init k with
  | nil => simp [requestNamesLoop, Header.keys]
  | cons e t ih =>
    unfold requestNamesLoop at ih ⊢
    simp only [Header.keys] at ih hk ⊢
    simp only [List.foldl_cons, List.map_cons, List.filter_cons] at hk ⊢
    cases hp : HasPrefix e.1 TrailerPrefix with
    | true =>
      simp only [hp, Bool.not_true, Bool.false_eq_true, if_false, if_true] at hk ⊢
      exact ih init k hk
    | false =>
      simp only [hp, Bool.not_false, if_true, Bool.false_eq_true, if_false,
        List.length_cons] at hk ⊢
      obtain ⟨k1, rfl⟩ : ∃ k1, k = k1 + 1 := ⟨k - 1, by omega⟩
      have hset : (init ++ List.replicate (k1 + 1) "").set init.length e.1
          = (init ++ [e.1]) ++ List.replicate k1 "" := by
        simp [List.replicate_succ]
      have hlen : init.length + 1 = (init ++ [e.1]).length := by simp
      rw [hset, hlen, ih (init ++ [e.1]) k1 (by omega)]
      simp only [List.length_append, List.length_singleton, List.append_assoc,
        List.singleton_append, Nat.add_sub_add_right, Prod.mk.injEq, true_and]
      omega

theorem requestNamesFinish_perm (names : List String) :
    (requestNamesFinish names).Perm names := by
  unfold requestNamesFinish
  split
  · next h => rw [List.length_eq_zero.mp h]
  · exact sortStrings_perm names

theorem GetRequestHeaderNames_perm (s : requestState) :
    (GetRequestHeaderNames s).Perm
      ((if s.r.Host ≠ "" then ["Host"] else []) ++
        s.r.Header.keys.filter (fun n => !HasPrefix n TrailerPrefix) ++
        List.replicate (s.r.Header.length -
          (s.r.Header.keys.filter (fun n => !HasPrefix n TrailerPrefix)).length) "") := by
  have hle : (s.r.Header.keys.filter (fun n => !HasPrefix n TrailerPrefix)).length
      ≤ s.r.Header.length := by
    have := List.length_filter_le (fun n => !HasPrefix n TrailerPrefix) s.r.Header.keys
    simpa [Header.keys] using this
  unfold GetRequestHeaderNames
  by_cases hH : s.r.Host ≠ ""
  · simp only [hH, if_true, ne_eq, not_false_eq_true]
    have h0 : (List.replicate (s.r.Header.length + 1) "").set 0 "Host"
        = ["Host"] ++ List.replicate s.r.Header.length "" := by
      simp [List.replicate_succ]
    have h1 := requestNamesLoop_eq s.r.Header ["Host"] s.r.Header.length hle
    simp only [List.length_singleton] at h1
    rw [h0, h1]
    exact requestNamesFinish_perm _
  · simp only [hH, if_false]
    by_cases hc : s.r.Header.length = 0
    · simp only [hc, if_true]
      have : s.r.Header = [] := List.length_eq_zero.mp hc
      simp [this, Header.keys]
    · simp only [hc, if_false]
      have h1 := requestNamesLoop_eq s.r.Header [] s.r.Header.length hle
      simp only [List.nil_append, List.length_nil, Nat.zero_add] at h1
      rw [h1]
      exact requestNamesFinish_perm _

theorem HeaderOp.run_keeps_host_out (s : requestState) (op : HeaderOp)
    (h0 : "Host" ∉ s.r.Header.keys) (hop : op.storesHost = false) :
    "Host" ∉ (op.run s).r.Header.keys := by
  cases op with
  | set name value =>
    have hne : ¬ (CanonicalMIMEHeaderKey name = "Host") := by
      simpa [HeaderOp.storesHost] using hop
    simp only [HeaderOp.run, SetRequestHeaderValue, Header.Set, Header.keys_assign,
      List.mem_cons, Header.mem_keys_delete, not_or]
    exact ⟨fun h => hne h.symm, fun h => h0 h.1⟩
  | add name value =>
    have hne : ¬ (CanonicalMIMEHeaderKey name = "Host") := by
      simpa [HeaderOp.storesHost] using hop
    simp only [HeaderOp.run, AddRequestHeaderValue, Header.Add, Header.keys_assign,
      List.mem_cons, Header.mem_keys_delete, not_or]
    exact ⟨fun h => hne h.symm, fun h => h0 h.1⟩
  | remove name =>
    simp only [HeaderOp.run, RemoveRequestHeader, Header.Del, Header.mem_keys_delete]
    exact fun h => h0 h.1

theorem HeaderOp.run_WF (s : requestState) (op : HeaderOp) (hwf : s.r.Header.WF) :
    (op.run s).r.Header.WF := by
  cases op with
  | set name value => exact Header.WF_assign _ _ _ hwf
  | add name value => exact Header.WF_assign _ _ _ hwf
  | remove name => exact Header.WF_delete _ _ hwf

theorem runHeaderOps_keeps_host_out (s : requestState) (ops : List HeaderOp)
    (h0 : "Host" ∉ s.r.Header.keys) (hops : ∀ op ∈ ops, op.storesHost = false) :
    "Host" ∉ (runHeaderOps s ops).r.Header.keys := by
  induction ops generalizing s with
  | nil => exact h0
  | cons op rest ih =>
    exact ih (op.run s)
      (HeaderOp.run_keeps_host_out s op h0 (hops op (List.mem_cons_self _ _)))
      (fun o ho => hops o (List.mem_cons_of_mem _ ho))

theorem runHeaderOps_WF (s : requestState) (ops : List HeaderOp) (hwf : s.r.Header.WF) :
    (runHeaderOps s ops).r.Header.WF := by
  induction ops generalizing s with
  | nil => exact hwf
  | cons op rest ih => exact ih (op.run s) (HeaderOp.run_WF s op hwf)

theorem count_GetRequestHeaderNames (s : requestState) (n : String) (hn : n ≠ "") :
    (GetRequestHeaderNames s).count n
      = (if s.r.Host ≠ "" then ["Host"] else []).count n +
        (s.r.Header.keys.filter (fun m => !HasPrefix m TrailerPrefix)).count n := by
  rw [(GetRequestHeaderNames_perm s).count_eq, List.count_append, List.count_append,
    List.count_replicate]
  have : ("" == n) = false := by simpa using fun h => hn h.symm
  simp [this]

/-! ## The Host name and the request header map -/

/-- C18 as stated fails: from a request with host `example.com` and an empty header
map, the single call `SetRequestHeaderValue "host" "x"` produces a map with the key
`Host`, and `GetRequestHeaderNames` then lists `Host` twice; from an empty request,
two calls that set trailer-prefixed names make it list the empty name twice. -/
theorem request_header_host_counterexample :
    "Host" ∉ Header.keys [] ∧
    "Host" ∈ (runHeaderOps { r := { Host := "example.com", Header := [] } }
        [HeaderOp.set "host" "x"]).r.Header.keys ∧
    GetRequestHeaderNames
        (runHeaderOps { r := { Host := "example.com", Header := [] } } [HeaderOp.set "host" "x"])
      = ["Host", "Host"] ∧
    GetRequestHeaderNames
        (runHeaderOps {} [HeaderOp.set "Trailer:A" "1", HeaderOp.set "Trailer:B" "2"])
      = ["", ""] := by
  decide

/-- C18 amended: starting from a request header map with no `Host` key, no sequence
of set, add and remove calls in which no set or add has a name whose canonical form
is `Host` produces a map with a `Host` key; `GetRequestHeaderNames` then lists `Host`
at most once, and, the map having one entry per key, lists no non-empty name more
than once. -/
theorem request_header_ops_keep_host_out (s : requestState) (ops : List HeaderOp)
    (h0 : "Host" ∉ s.r.Header.keys) (hops : ∀ op ∈ ops, op.storesHost = false) :
    "Host" ∉ (runHeaderOps s ops).r.Header.keys ∧
    (GetRequestHeaderNames (runHeaderOps s ops)).count "Host" ≤ 1 ∧
    (s.r.Header.WF → ∀ n, n ≠ "" → (GetRequestHeaderNames (runHeaderOps s ops)).count n ≤ 1) := by
  have hout := runHeaderOps_keeps_host_out s ops h0 hops
  have hplain : ∀ n, n ∈ (runHeaderOps s ops).r.Header.keys.filter
      (fun m => !HasPrefix m TrailerPrefix) → n ∈ (runHeaderOps s ops).r.Header.keys :=
    fun n hn => (List.mem_filter.mp hn).1
  have hz : ((runHeaderOps s ops).r.Header.keys.filter
      (fun m => !HasPrefix m TrailerPrefix)).count "Host" = 0 :=
    List.count_eq_zero.mpr (fun h => hout (hplain _ h))
  refine ⟨hout, ?_, ?_⟩
  · rw [count_GetRequestHeaderNames _ _ (by decide), hz]
    split <;> simp
  · intro hwf n hn
    have hnd : ((runHeaderOps s ops).r.Header.keys.filter
        (fun m => !HasPrefix m TrailerPrefix)).Nodup :=
      List.Nodup.filter _ (runHeaderOps_WF s ops hwf)
    have hle := List.nodup_iff_count_le_one.mp hnd n
    rw [count_GetRequestHeaderNames _ _ hn]
    by_cases hh : n = "Host"
    · subst hh
      rw [hz]
      split <;> simp
    · have : (if (runHeaderOps s ops).r.Host ≠ "" then ["Host"] else []).count n = 0 := by
        apply List.count_eq_zero.mpr
        split
        · simpa using hh
        · simp
      omega

theorem request_header_ops_keep_host_out_witness :
    "Host" ∉ Header.keys [("Accept", ["a"])] ∧
    (∀ op ∈ [HeaderOp.set "x-id" "1", HeaderOp.add "x-id" "2", HeaderOp.remove "accept",
        HeaderOp.remove "host"], op.storesHost = false) ∧
    "Host" ∉ (runHeaderOps { r := { Host := "example.com", Header := [("Accept", ["a"])] } }
        [HeaderOp.set "x-id" "1", HeaderOp.add "x-id" "2", HeaderOp.remove "accept",
          HeaderOp.remove "host"]).r.Header.keys ∧
    GetRequestHeaderNames
        (runHeaderOps { r := { Host := "example.com", Header := [("Accept", ["a"])] } }
          [HeaderOp.set "x-id" "1", HeaderOp.add "x-id" "2", HeaderOp.remove "accept",
            HeaderOp.remove "host"])
      = ["Host", "X-Id"] :=
  ⟨by decide, by decide,
    (request_header_ops_keep_host_out
      { r := { Host := "example.com", Header := [("Accept", ["a"])] } }
      [HeaderOp.set "x-id" "1", HeaderOp.add "x-id" "2", HeaderOp.remove "accept",
        HeaderOp.remove "host"]
      (by decide) (by decide)).1,
    by decide⟩

end Wasm
